import Mathlib

/-
Verification development for the rust-rocket client library.

The Rust sources are embedded shallowly:
  * machine integers (u8, u32) become Nat; the u32 saturating cast from a
    float floor is made explicit in floorToU32;
  * f32 values become rationals; the bit-level decoding of a wire f32 is
    embedded in f32FromBits (IEEE 754 binary32, with the non-finite
    encodings mapped to 0, which no theorem below depends on);
  * fallible or panicking code returns Option, or a result constructor
    Panic that marks an untyped trap (index out of bounds, unwrap);
  * the nonblocking TCP stream becomes a list of inbound bytes plus a
    list of outbound messages; a read takes as many bytes as are
    available, up to the requested count, and reports would-block when
    none are available.
-/

namespace RustRocket

/-- Interpolation curve families. Modelled from the spec: the crate root
declares a module interpolation but its file is not present under src, so
the enum and its two functions are reconstructed from the spec, which
lists the kinds step/hold, linear, eased/smooth and ramp, each with a
single-byte wire discriminant, unknown discriminants mapping to a defined
default. -/
inductive Interpolation where
  | Step
  | Linear
  | Smooth
  | Ramp
deriving DecidableEq, Repr

/-- Modelled from the spec: easing function of each curve kind, a pure
function on the normalized progress value. -/
def Interpolation.interpolate : Interpolation → ℚ → ℚ
  | .Step, _ => 0
  | .Linear, t => t
  | .Smooth, t => t * t * (3 - 2 * t)
  | .Ramp, t => t * t

/-- Modelled from the spec: decoding a wire discriminant byte into a curve
kind, total, with unknown bytes mapping to the default kind. -/
def Interpolation.fromU8 (b : Nat) : Interpolation :=
  match b with
  | 0 => .Step
  | 1 => .Linear
  | 2 => .Smooth
  | 3 => .Ramp
  | _ => .Linear

/-- A keyframe: row position (u32), value (f32 as rational), curve. -/
structure Key where
  row : Nat
  value : ℚ
  interpolation : Interpolation
deriving DecidableEq, Repr

/-- Key constructor, mirroring Key::new. -/
def Key.new (row : Nat) (value : ℚ) (interp : Interpolation) : Key :=
  { row := row, value := value, interpolation := interp }

/-- A named track holding an ordered sequence of keys. -/
structure Track where
  name : String
  keys : List Key
deriving DecidableEq, Repr

/-- Track constructor, mirroring Track::new. -/
def Track.new (name : String) : Track :=
  { name := name, keys := [] }

/-- Mirrors Track::get_name. -/
def Track.get_name (t : Track) : String := t.name

/-- Mirrors Track::get_exact_position: index of the first key whose row
equals the given row. -/
def Track.get_exact_position (t : Track) (row : Nat) : Option Nat :=
  t.keys.findIdx? (fun k => decide (k.row = row))

/-- Mirrors Track::get_insert_position: index of the first key whose row
is at least the given row (the source wraps the search result in a match
that returns it unchanged). -/
def Track.get_insert_position (t : Track) (row : Nat) : Option Nat :=
  match t.keys.findIdx? (fun k => decide (row ≤ k.row)) with
  | some pos => some pos
  | none => none

/-- Mirrors Track::set_key: replace in place when a key occupies the same
row, otherwise insert before the first key with row at least the new row,
otherwise push at the end. -/
def Track.set_key (t : Track) (key : Key) : Track :=
  match t.get_exact_position key.row with
  | some pos => { t with keys := t.keys.set pos key }
  | none =>
    match t.get_insert_position key.row with
    | some pos => { t with keys := t.keys.insertIdx pos key }
    | none => { t with keys := t.keys ++ [key] }

/-- Mirrors Track::delete_key: remove the key at the exact row if present. -/
def Track.delete_key (t : Track) (row : Nat) : Track :=
  match t.get_exact_position row with
  | some pos => { t with keys := t.keys.eraseIdx pos }
  | none => t

/-- Saturating cast of a float floor to u32, mirroring row.floor() as u32
in Rust: negative values clamp to 0, values above the u32 maximum clamp to
the maximum. -/
def floorToU32 (r : ℚ) : Nat :=
  (min ⌊r⌋ (2 ^ 32 - 1)).toNat

/-- Mirrors Track::get_value. The result none marks a panic of the source
function: the unwrap of the insertion search, the subtraction of 1 from an
insertion position of 0, or an out-of-range key index. -/
def Track.get_value (t : Track) (row : ℚ) : Option ℚ :=
  match t.keys.head?, t.keys.getLast? with
  | some first, some last =>
    let lower_row := floorToU32 row
    if lower_row ≤ first.row then some first.value
    else if last.row ≤ lower_row then some last.value
    else
      match t.get_insert_position lower_row with
      | none => none
      | some p =>
        if p = 0 then none
        else
          match t.keys[p - 1]?, t.keys[p]? with
          | some lower, some higher =>
            let s := (row - (lower.row : ℚ)) / ((higher.row : ℚ) - (lower.row : ℚ))
            some (lower.value + (higher.value - lower.value) * lower.interpolation.interpolate s)
          | _, _ => none
  | _, _ => some 0

/-- Decoder states, mirroring ClientState. -/
inductive ClientState where
  | New
  | Incomplete (bytes : Nat)
  | Complete
deriving DecidableEq, Repr

/-- Tracker events, mirroring Event. -/
inductive Event where
  | SetRow (row : Nat)
  | Pause (flag : Bool)
  | SaveTracks
deriving DecidableEq, Repr

/-- Internal per-step decoder result, mirroring ReceiveResult. -/
inductive ReceiveResult where
  | Some (e : Event)
  | None
  | Incomplete
deriving DecidableEq, Repr

/-- Session errors, mirroring the Error enum (sources elided). -/
inductive RocketError where
  | Connect
  | Handshake
  | HandshakeGreetingMismatch
  | SetNonblocking
  | IOError
deriving DecidableEq, Repr

/-- The client: the socket becomes an inbound byte list plus an outbound
message list, the rest of the fields mirror RocketClient. -/
structure RocketClient where
  stream_in : List Nat
  sent : List (List Nat)
  state : ClientState
  cmd : List Nat
  tracks : List Track
deriving DecidableEq, Repr

/-- Outcome of poll_event: Ok carries the step result and the updated
client, Err a typed error, Panic an untyped trap in the dispatch code. -/
inductive PollResult where
  | Ok (r : ReceiveResult) (c : RocketClient)
  | Err (e : RocketError)
  | Panic
deriving DecidableEq, Repr

/-- Outcome of poll_events. FuelOut only reports insufficient fuel of the
embedding; it is never reached with fuel above the measure proved below. -/
inductive PollsResult where
  | Ok (e : Option Event) (c : RocketClient)
  | Err (e : RocketError)
  | Panic
  | FuelOut
deriving DecidableEq, Repr

/-- Reads one byte from the front of a cursor, mirroring read_u8; none
marks the unwrap panic on exhaustion. -/
def readU8 : List Nat → Option (Nat × List Nat)
  | [] => none
  | b :: rest => some (b, rest)

/-- Reads a big-endian u32 from the front of a cursor, mirroring
read_u32::<BigEndian>; none marks the unwrap panic on exhaustion. -/
def readU32 : List Nat → Option (Nat × List Nat)
  | b0 :: b1 :: b2 :: b3 :: rest => some (((b0 * 256 + b1) * 256 + b2) * 256 + b3, rest)
  | _ => none

/-- Big-endian encoding of a u32, mirroring write_u32::<BigEndian>. -/
def u32be (n : Nat) : List Nat :=
  [n / 2 ^ 24 % 256, n / 2 ^ 16 % 256, n / 2 ^ 8 % 256, n % 256]

/-- IEEE 754 binary32 value of a 32-bit pattern, as a rational; the
non-finite encodings (exponent 255) carry no rational value and map to 0.
This embeds read_f32::<BigEndian> composed with the bit pattern read. -/
def f32FromBits (n : Nat) : ℚ :=
  let sign : Nat := n / 2 ^ 31 % 2
  let e : Nat := n / 2 ^ 23 % 2 ^ 8
  let m : Nat := n % 2 ^ 23
  let mag : ℚ :=
    if e = 0 then (m : ℚ) / 2 ^ 149
    else if e = 255 then 0
    else (((2 ^ 23 + m) * 2 ^ e : Nat) : ℚ) / (2 ^ 150 : ℚ)
  if sign = 1 then -mag else mag

/-- UTF-8 bytes of a string, as used by name.len() and name.as_bytes(). -/
def strBytes (s : String) : List Nat :=
  (s.data.flatMap (fun c => String.utf8EncodeChar c)).map (fun b => b.toNat)

/-- The RequestTrack wire message built by get_track_mut: opcode 2, then
the big-endian byte length of the name, then the name bytes. -/
def requestTrackMsg (name : String) : List Nat :=
  2 :: u32be (strBytes name).length ++ strBytes name

/-- Mirrors RocketClient::get_track_mut. The returned Nat is the index of
the returned track in the registry, standing for the &mut Track identity. -/
def RocketClient.get_track_mut (c : RocketClient) (name : String) : Nat × RocketClient :=
  match c.tracks.findIdx? (fun t => t.get_name == name) with
  | some i => (i, c)
  | none =>
    (c.tracks.length,
     { c with sent := c.sent ++ [requestTrackMsg name],
              tracks := c.tracks ++ [Track.new name] })

/-- Mirrors RocketClient::poll_event, one step of the decoder state
machine. A read on the inbound stream takes as many bytes as are
available, up to the requested count; an empty stream is would-block.
Note that in the Incomplete state the source appends the whole fixed-size
read buffer to cmd, zero padding included, not only the bytes read. -/
def RocketClient.poll_event (c : RocketClient) : PollResult :=
  match c.state with
  | ClientState.New =>
    match c.stream_in with
    | [] => .Ok .None c
    | b :: rest =>
      let cmd := c.cmd ++ [b]
      let st : ClientState :=
        match cmd.headD 0 with
        | 0 => .Incomplete (4 + 4 + 4 + 1)
        | 1 => .Incomplete (4 + 4)
        | 3 => .Incomplete 4
        | 4 => .Incomplete 1
        | 5 => .Complete
        | _ => .Complete
      .Ok .Incomplete { c with stream_in := rest, cmd := cmd, state := st }
  | ClientState.Incomplete bytes =>
    if 0 < bytes ∧ c.stream_in = [] then .Ok .None c
    else
      let bytes_read := min bytes c.stream_in.length
      let buf := c.stream_in.take bytes_read ++ List.replicate (bytes - bytes_read) 0
      let cmd := c.cmd ++ buf
      let st : ClientState :=
        if bytes_read < bytes then .Incomplete (bytes - bytes_read) else .Complete
      .Ok .Incomplete { c with stream_in := c.stream_in.drop bytes_read, cmd := cmd, state := st }
  | ClientState.Complete =>
    match readU8 c.cmd with
    | none => .Panic
    | some (cmdb, r0) =>
      match cmdb with
      | 0 =>
        match readU32 r0 with
        | none => .Panic
        | some (idx, r1) =>
          match c.tracks[idx]? with
          | none => .Panic
          | some track =>
            match readU32 r1 with
            | none => .Panic
            | some (row, r2) =>
              match readU32 r2 with
              | none => .Panic
              | some (bits, r3) =>
                match readU8 r3 with
                | none => .Panic
                | some (ib, _) =>
                  let key := Key.new row (f32FromBits bits) (Interpolation.fromU8 ib)
                  let tracks := c.tracks.set idx (track.set_key key)
                  .Ok .None { c with cmd := [], state := .New, tracks := tracks }
      | 1 =>
        match readU32 r0 with
        | none => .Panic
        | some (idx, r1) =>
          match c.tracks[idx]? with
          | none => .Panic
          | some track =>
            match readU32 r1 with
            | none => .Panic
            | some (row, _) =>
              let tracks := c.tracks.set idx (track.delete_key row)
              .Ok .None { c with cmd := [], state := .New, tracks := tracks }
      | 3 =>
        match readU32 r0 with
        | none => .Panic
        | some (row, _) => .Ok (.Some (.SetRow row)) { c with cmd := [], state := .New }
      | 4 =>
        match readU8 r0 with
        | none => .Panic
        | some (b, _) => .Ok (.Some (.Pause (b == 1))) { c with cmd := [], state := .New }
      | 5 => .Ok (.Some .SaveTracks) { c with cmd := [], state := .New }
      | _ => .Ok .None { c with cmd := [], state := .New }

/-- Mirrors RocketClient::poll_events: loop poll_event until it yields an
event or no data; the loop is embedded with explicit fuel. -/
def RocketClient.poll_events (fuel : Nat) (c : RocketClient) : PollsResult :=
  match fuel with
  | 0 => .FuelOut
  | fuel + 1 =>
    match c.poll_event with
    | .Panic => .Panic
    | .Err e => .Err e
    | .Ok .None c1 => .Ok none c1
    | .Ok (.Some e) c1 => .Ok (some e) c1
    | .Ok .Incomplete c1 => RocketClient.poll_events fuel c1

/-- Runs one poll_events call with sufficient fuel and keeps the updated
client, defaulting to the input on a non-Ok outcome. -/
def runPoll (c : RocketClient) : RocketClient :=
  match RocketClient.poll_events (2 * c.stream_in.length + 2) c with
  | .Ok _ c1 => c1
  | _ => c

/-- Delivers one more byte on the stream and polls: the byte-at-a-time
delivery scenario. -/
def feedByte (c : RocketClient) (b : Nat) : RocketClient :=
  runPoll { c with stream_in := c.stream_in ++ [b] }

/-- The track invariant: keys sorted strictly ascending by row, hence at
most one key per row. -/
def KeysSorted (ks : List Key) : Prop :=
  ks.Pairwise (fun a b => a.row < b.row)

instance (ks : List Key) : Decidable (KeysSorted ks) := by
  unfold KeysSorted; infer_instance

/-- Ordered insertion before the first key of row at least the inserted
one; recursive form of the insertion branch of set_key, used to reason
about it. -/
def insertGE (k : Key) : List Key → List Key
  | [] => [k]
  | a :: l => if k.row ≤ a.row then k :: a :: l else a :: insertGE k l

/-- One mutating track operation. -/
inductive TrackOp where
  | set (k : Key)
  | del (row : Nat)

/-- Applies one mutating operation to a track. -/
def Track.applyOp (t : Track) : TrackOp → Track
  | .set k => t.set_key k
  | .del row => t.delete_key row

/-- Definition following the words of the spec for evaluate, written to be
compared with the translation of Track::get_value: in the interior case
the bracketing pair (lower, higher) is chosen with
lower.position ≤ floor(row) < higher.position, then
t = (row − lower.position) / (higher.position − lower.position) is eased
by the lower curve and used to interpolate the two values. The clamp and
empty cases follow the spec as well. -/
def Track.get_value_spec (t : Track) (row : ℚ) : Option ℚ :=
  match t.keys.head?, t.keys.getLast? with
  | some first, some last =>
    let lower_row := floorToU32 row
    if lower_row ≤ first.row then some first.value
    else if last.row ≤ lower_row then some last.value
    else
      match t.keys.findIdx? (fun k => decide (lower_row < k.row)) with
      | none => none
      | some p =>
        if p = 0 then none
        else
          match t.keys[p - 1]?, t.keys[p]? with
          | some lower, some higher =>
            let s := (row - (lower.row : ℚ)) / ((higher.row : ℚ) - (lower.row : ℚ))
            some (lower.value + (higher.value - lower.value) * lower.interpolation.interpolate s)
          | _, _ => none
  | _, _ => some 0

/-- Example track with three linear keys, rows 0, 5, 10. -/
def exTrack : Track :=
  { name := "t", keys := [Key.new 0 0 .Linear, Key.new 5 1 .Linear, Key.new 10 3 .Linear] }

/-- A complete SetKey wire message: opcode 0, track index 0, row 1, value
bits 0 (0.0), curve byte 1 (linear). -/
def setKeyMsgEx : List Nat :=
  [0, 0, 0, 0, 0, 0, 0, 0, 1, 0, 0, 0, 0, 1]

/-- A complete SetRow wire message for row 5. -/
def setRowMsgEx : List Nat :=
  [3, 0, 0, 0, 5]

/-- A fresh client owning one registered track. -/
def exClient : RocketClient :=
  { stream_in := [], sent := [], state := .New, cmd := [], tracks := [Track.new "t"] }

/-- The event slot of a successful poll_events outcome. -/
def PollsResult.eventOf : PollsResult → Option Event
  | .Ok e _ => e
  | _ => none

/-- The updated client of a successful poll_events outcome. -/
def PollsResult.clientOf : PollsResult → Option RocketClient
  | .Ok _ c => some c
  | _ => none

/-- Row and curve of every key of every track; the value field, a
rational, is projected away so that concrete runs can be compared by
evaluation. -/
def tracksShape (ts : List Track) : List (List (Nat × Interpolation)) :=
  ts.map (fun t => t.keys.map (fun k => (k.row, k.interpolation)))

/-- Reading back a big-endian u32 recovers the encoded value. -/
theorem readU32_u32be (n : Nat) (rest : List Nat) (h : n < 2 ^ 32) :
    readU32 (u32be n ++ rest) = some (n, rest) := by
  simp only [u32be, readU32, List.cons_append, List.nil_append, Option.some.injEq,
    Prod.mk.injEq]
  refine ⟨?_, trivial⟩
  norm_num
  omega

/-- C1. The code has the intended transition AwaitingPayload(n) to
AwaitingPayload(n-k) on a partial read of k bytes, but it appends the
whole n-byte zero-initialized read buffer to the accumulation buffer
instead of only the k bytes read. Feeding a complete SetKey message
(track 0, row 1, value bits 0, curve byte 1) one byte per poll therefore
decodes a different command than feeding it in one read: the zero padding
shifts every payload field. The rational value field is projected away by
tracksShape; the divergence is already visible in the decoded row and
curve. -/
theorem setkey_fragmented_delivery_diverges :
    tracksShape (setKeyMsgEx.foldl feedByte exClient).tracks = [[(0, .Step)]] ∧
    tracksShape (runPoll { exClient with stream_in := setKeyMsgEx }).tracks = [[(1, .Linear)]] ∧
    tracksShape (setKeyMsgEx.foldl feedByte exClient).tracks ≠
      tracksShape (runPoll { exClient with stream_in := setKeyMsgEx }).tracks :=
  ⟨by decide, by decide, by decide⟩

/-- C3 counterexample. With a complete SetKey message followed by a
complete SetRow message both already delivered, one poll_events call
returns without an event while the fully formed SetRow message is still
buffered undecoded: a second call decodes it and yields the event. This
refutes the sentence that a poll call without an event has decoded and
dispatched every fully formed message already delivered. -/
theorem poll_returns_none_with_full_message_buffered :
    (RocketClient.poll_events 40 { exClient with stream_in := setKeyMsgEx ++ setRowMsgEx }).eventOf
      = none ∧
    (RocketClient.poll_events 40 { exClient with stream_in := setKeyMsgEx ++ setRowMsgEx }).clientOf.map
      RocketClient.stream_in = some setRowMsgEx ∧
    setRowMsgEx ≠ [] ∧
    (RocketClient.poll_events 40 { exClient with stream_in := setKeyMsgEx ++ setRowMsgEx }).clientOf.map
      (fun c1 => (RocketClient.poll_events 40 c1).eventOf) = some (some (Event.SetRow 5)) :=
  ⟨by decide, by decide, by decide, by decide⟩

/-- C4 counterexample. A SetKey command for track index 0 arriving while
the registry is empty makes poll end in the untyped trap (the panicking
index and unwrap path), not in a typed error result, refuting the claim
that a nonexistent track index surfaces as a typed error to the caller. -/
theorem bad_track_index_gives_untyped_trap :
    RocketClient.poll_events 20
      { stream_in := setKeyMsgEx, sent := [], state := .New, cmd := [], tracks := [] } =
      .Panic := by
  decide

/-- C4 (amended). An inbound SetKey or DeleteKey command whose track
index is outside the registry is never silently ignored: the dispatch
path always traps (models the panicking tracks[idx] indexing), for every
registry, stream and payload. It is fatal, but as an untyped panic, not
as a typed error result. -/
theorem edit_command_bad_index_is_panic (idx row bits ib : Nat)
    (rest tail stream : List Nat) (sent : List (List Nat)) (tracks : List Track)
    (hidx : idx < 2 ^ 32) (hoob : tracks.length ≤ idx) :
    RocketClient.poll_event
      ⟨stream, sent, .Complete, 0 :: (u32be idx ++ u32be row ++ u32be bits ++ ib :: rest), tracks⟩
      = .Panic ∧
    RocketClient.poll_event
      ⟨stream, sent, .Complete, 1 :: (u32be idx ++ u32be row ++ tail), tracks⟩
      = .Panic := by
  have hnone : tracks[idx]? = none := List.getElem?_eq_none hoob
  constructor
  · show RocketClient.poll_event
      ⟨stream, sent, .Complete, 0 :: (u32be idx ++ (u32be row ++ u32be bits ++ ib :: rest)), tracks⟩
      = .Panic
    simp only [RocketClient.poll_event, readU8,
      readU32_u32be idx (u32be row ++ u32be bits ++ ib :: rest) hidx, hnone]
  · show RocketClient.poll_event
      ⟨stream, sent, .Complete, 1 :: (u32be idx ++ (u32be row ++ tail)), tracks⟩
      = .Panic
    simp only [RocketClient.poll_event, readU8,
      readU32_u32be idx (u32be row ++ tail) hidx, hnone]

/-- Witness for edit_command_bad_index_is_panic at index 0 on an empty
registry. -/
theorem edit_command_bad_index_is_panic_witness :
    RocketClient.poll_event
      ⟨[], [], .Complete, 0 :: (u32be 0 ++ u32be 0 ++ u32be 0 ++ 0 :: []), []⟩ = .Panic ∧
    RocketClient.poll_event
      ⟨[], [], .Complete, 1 :: (u32be 0 ++ u32be 0 ++ []), []⟩ = .Panic :=
  edit_command_bad_index_is_panic 0 0 0 0 [] [] [] [] [] (by decide) (by decide)

/-- C8. Decoding an unrecognized opcode byte is recoverable: it is read
as a zero-length-payload message, dispatch yields no event, touches no
track, never traps and is never a typed error, and the decoder is back in
the awaiting-opcode state with an empty buffer, with only the one opcode
byte consumed from the stream, so later message boundaries are intact. -/
theorem unknown_opcode_skipped_and_recoverable (b : Nat) (rest : List Nat)
    (sent : List (List Nat)) (tracks : List Track)
    (h0 : b ≠ 0) (h1 : b ≠ 1) (h3 : b ≠ 3) (h4 : b ≠ 4) (h5 : b ≠ 5) :
    RocketClient.poll_events 3 ⟨b :: rest, sent, .New, [], tracks⟩ =
      .Ok none ⟨rest, sent, .New, [], tracks⟩ := by
  rcases b with _|_|_|_|_|_|b
  · exact absurd rfl h0
  · exact absurd rfl h1
  · rfl
  · exact absurd rfl h3
  · exact absurd rfl h4
  · exact absurd rfl h5
  · rfl

/-- Witness for unknown_opcode_skipped_and_recoverable at opcode byte 6. -/
theorem unknown_opcode_skipped_and_recoverable_witness :
    RocketClient.poll_events 3 ⟨6 :: [7], [], .New, [], [Track.new "t"]⟩ =
      .Ok none ⟨[7], [], .New, [], [Track.new "t"]⟩ :=
  unknown_opcode_skipped_and_recoverable 6 [7] [] [Track.new "t"]
    (by decide) (by decide) (by decide) (by decide) (by decide)

/-- C10. Opcode byte 2 (RequestTrack, an outbound-only message) arriving
inbound is handled exactly like an unknown opcode: zero-length payload,
no event, no track mutation, decoder reset to the awaiting-opcode state
with an empty buffer; the run is identical to that of the unknown opcode
byte 6. -/
theorem opcode_two_inbound_treated_as_unknown (rest : List Nat)
    (sent : List (List Nat)) (tracks : List Track) :
    RocketClient.poll_events 3 ⟨2 :: rest, sent, .New, [], tracks⟩ =
      .Ok none ⟨rest, sent, .New, [], tracks⟩ ∧
    RocketClient.poll_events 3 ⟨2 :: rest, sent, .New, [], tracks⟩ =
      RocketClient.poll_events 3 ⟨6 :: rest, sent, .New, [], tracks⟩ :=
  ⟨rfl, rfl⟩

theorem mem_insertGE {b k : Key} : ∀ {l : List Key}, b ∈ insertGE k l → b = k ∨ b ∈ l := by
  intro l
  induction l with
  | nil => intro h; simp [insertGE] at h; exact Or.inl h
  | cons a l ih =>
    intro h
    by_cases hle : k.row ≤ a.row
    · simp [insertGE, hle] at h
      rcases h with h | h | h
      · exact Or.inl h
      · exact Or.inr (by simp [h])
      · exact Or.inr (by simp [h])
    · simp [insertGE, hle] at h
      rcases h with h | h
      · exact Or.inr (by simp [h])
      · rcases ih h with h1 | h1
        · exact Or.inl h1
        · exact Or.inr (by simp [h1])

theorem pairwise_insertGE {k : Key} :
    ∀ {l : List Key}, l.Pairwise (fun a b => a.row < b.row) →
      (∀ x ∈ l, x.row ≠ k.row) →
      (insertGE k l).Pairwise (fun a b => a.row < b.row) := by
  intro l
  induction l with
  | nil => intro _ _; simp [insertGE]
  | cons a l ih =>
    intro hs hne
    rw [List.pairwise_cons] at hs
    by_cases hle : k.row ≤ a.row
    · have hka : k.row < a.row :=
        Nat.lt_of_le_of_ne hle (Ne.symm (hne a (by simp)))
      simp only [insertGE, hle, if_pos]
      rw [List.pairwise_cons]
      constructor
      · intro b hb
        rcases List.mem_cons.mp hb with rfl | hbl
        · exact hka
        · exact Nat.lt_trans hka (hs.1 b hbl)
      · rw [List.pairwise_cons]
        exact ⟨hs.1, hs.2⟩
    · have hak : a.row < k.row := Nat.lt_of_not_le hle
      simp only [insertGE, hle, if_neg, not_false_iff]
      rw [List.pairwise_cons]
      constructor
      · intro b hb
        rcases mem_insertGE hb with rfl | hbl
        · exact hak
        · exact hs.1 b hbl
      · exact ih hs.2 (fun x hx => hne x (by simp [hx]))

theorem insert_branch_eq_insertGE (k : Key) :
    ∀ (ks : List Key),
      (match ks.findIdx? (fun a => decide (k.row ≤ a.row)) with
       | some pos => ks.insertIdx pos k
       | none => ks ++ [k]) = insertGE k ks := by
  intro ks
  induction ks with
  | nil => simp [insertGE]
  | cons a l ih =>
    by_cases hle : k.row ≤ a.row
    · simp [List.findIdx?_cons, hle, insertGE, List.insertIdx_zero]
    · simp only [List.findIdx?_cons, decide_eq_true_eq, hle, if_neg, not_false_iff,
        List.findIdx?_start_succ]
      cases hf : l.findIdx? (fun a => decide (k.row ≤ a.row)) with
      | none =>
        simp at ih
        simp [insertGE, hle, ← ih]
        rw [hf]
      | some j =>
        simp at ih
        simp [insertGE, hle, List.insertIdx_succ_cons, ← ih]
        rw [hf]

theorem pairwise_set_of_row_eq (ks : List Key) (i : Nat) (k : Key)
    (hs : ks.Pairwise (fun a b => a.row < b.row))
    (hrow : ∀ h : i < ks.length, ks[i].row = k.row) :
    (ks.set i k).Pairwise (fun a b => a.row < b.row) := by
  rw [List.pairwise_iff_getElem] at hs ⊢
  intro a b ha hb hab
  simp only [List.length_set] at ha hb
  rw [List.getElem_set, List.getElem_set]
  split_ifs with h1 h2 h3
  · omega
  · subst h1
    have h := hs i b ha hb hab
    rwa [hrow ha] at h
  · subst h3
    have h := hs a i ha hb hab
    rwa [hrow hb] at h
  · exact hs a b ha hb hab

theorem get_insert_position_eq (t : Track) (row : Nat) :
    t.get_insert_position row = t.keys.findIdx? (fun k => decide (row ≤ k.row)) := by
  unfold Track.get_insert_position
  cases t.keys.findIdx? (fun k => decide (row ≤ k.row)) <;> rfl

theorem set_key_keys_sorted (t : Track) (k : Key) (hs : KeysSorted t.keys) :
    KeysSorted (t.set_key k).keys := by
  unfold KeysSorted at hs ⊢
  unfold Track.set_key
  cases he : t.get_exact_position k.row with
  | some i =>
    simp only
    apply pairwise_set_of_row_eq _ _ _ hs
    intro h
    unfold Track.get_exact_position at he
    rcases List.findIdx?_eq_some_iff_getElem.mp he with ⟨h2, hp, _⟩
    simpa using hp
  | none =>
    unfold Track.get_exact_position at he
    rw [List.findIdx?_eq_none_iff] at he
    have hne : ∀ x ∈ t.keys, x.row ≠ k.row := by
      intro x hx
      have := he x hx
      simpa using this
    rw [get_insert_position_eq]
    have hbr := insert_branch_eq_insertGE k t.keys
    cases hf : t.keys.findIdx? (fun a => decide (k.row ≤ a.row)) with
    | some p =>
      rw [hf] at hbr
      simp only at hbr ⊢
      rw [hbr]
      exact pairwise_insertGE hs hne
    | none =>
      rw [hf] at hbr
      simp only at hbr ⊢
      rw [hbr]
      exact pairwise_insertGE hs hne

theorem delete_key_keys_sorted (t : Track) (row : Nat) (hs : KeysSorted t.keys) :
    KeysSorted (t.delete_key row).keys := by
  unfold KeysSorted at hs ⊢
  unfold Track.delete_key
  cases t.get_exact_position row with
  | some i => exact hs.sublist (List.eraseIdx_sublist t.keys i)
  | none => exact hs

theorem foldl_applyOp_sorted (ops : List TrackOp) :
    ∀ (t : Track), KeysSorted t.keys → KeysSorted ((ops.foldl Track.applyOp t).keys) := by
  induction ops with
  | nil => intro t h; exact h
  | cons op ops ih =>
    intro t h
    rw [List.foldl_cons]
    apply ih
    cases op with
    | set k => exact set_key_keys_sorted t k h
    | del row => exact delete_key_keys_sorted t row h

/-- C5. The track invariant, keys sorted strictly ascending by position
with at most one key per position, is preserved by every mutating
operation on its own (replacement in place on an existing position,
ordered insertion otherwise, append when no later key exists; deletion by
exact position), and hence holds at all times along every sequence of
set_key and delete_key operations applied to a track that starts empty.
No operation re-sorts the sequence. -/
theorem track_mutations_preserve_sorted :
    (∀ (t : Track) (k : Key), KeysSorted t.keys → KeysSorted (t.set_key k).keys) ∧
    (∀ (t : Track) (row : Nat), KeysSorted t.keys → KeysSorted (t.delete_key row).keys) ∧
    (∀ (name : String) (ops : List TrackOp),
      KeysSorted ((ops.foldl Track.applyOp (Track.new name)).keys)) :=
  ⟨set_key_keys_sorted, delete_key_keys_sorted,
   fun name ops => foldl_applyOp_sorted ops (Track.new name) (by simp [Track.new, KeysSorted])⟩

/-- Witness for track_mutations_preserve_sorted on the example track. -/
theorem track_mutations_preserve_sorted_witness :
    KeysSorted ((exTrack.set_key (Key.new 3 0 .Smooth)).keys) ∧
    KeysSorted ((exTrack.delete_key 5).keys) :=
  ⟨track_mutations_preserve_sorted.1 exTrack (Key.new 3 0 .Smooth) (by decide),
   track_mutations_preserve_sorted.2.1 exTrack 5 (by decide)⟩

/-- One poll_event step that reports no data either leaves the client
unchanged with an empty inbound stream, or has just dispatched a complete
non-event message, leaving the decoder reset. -/
theorem poll_event_none_shape {c c1 : RocketClient} (h : c.poll_event = .Ok .None c1) :
    c1.stream_in = [] ∨ (c1.state = ClientState.New ∧ c1.cmd = []) := by
  obtain ⟨si, se, st, cm, tr⟩ := c
  cases st with
  | New =>
    cases si with
    | nil =>
      simp only [RocketClient.poll_event] at h
      injection h with h1 h2
      subst h2
      exact Or.inl rfl
    | cons b rest =>
      simp only [RocketClient.poll_event] at h
      injection h with h1 h2
      exact ReceiveResult.noConfusion h1
  | Incomplete bytes =>
    simp only [RocketClient.poll_event] at h
    split at h
    · injection h with h1 h2
      subst h2
      rename_i hcond
      exact Or.inl hcond.2
    · injection h with h1 h2
      exact ReceiveResult.noConfusion h1
  | Complete =>
    simp only [RocketClient.poll_event] at h
    repeat' split at h
    all_goals try exact PollResult.noConfusion h
    all_goals injection h with h1 h2
    all_goals try exact ReceiveResult.noConfusion h1
    all_goals (subst h2; exact Or.inr ⟨rfl, rfl⟩)

/-- C3 (amended). The polling loop never surfaces the internal incomplete
result: it loops on it until the step yields an event or no data. When a
poll_events call returns without an event, however, it is not guaranteed
that every fully formed delivered message has been decoded: the call
returns either because the inbound stream is empty, or because the
decoder has just dispatched a complete SetKey, DeleteKey or
unknown-opcode message (reset state, empty buffer), in which case further
fully formed messages may still be buffered. -/
theorem poll_without_event_characterization (fuel : Nat) (c c1 : RocketClient)
    (h : RocketClient.poll_events fuel c = .Ok none c1) :
    c1.stream_in = [] ∨ (c1.state = ClientState.New ∧ c1.cmd = []) := by
  induction fuel generalizing c with
  | zero => exact PollsResult.noConfusion h
  | succ fuel ih =>
    unfold RocketClient.poll_events at h
    cases hp : RocketClient.poll_event c with
    | Panic => rw [hp] at h; exact PollsResult.noConfusion h
    | Err e => rw [hp] at h; exact PollsResult.noConfusion h
    | Ok r c2 =>
      rw [hp] at h
      cases r with
      | Some e =>
        simp only at h
        injection h with h1 h2
        exact Option.noConfusion h1
      | None =>
        simp only at h
        injection h with h1 h2
        subst h2
        exact poll_event_none_shape hp
      | Incomplete =>
        simp only at h
        exact ih c2 h

/-- Witness for poll_without_event_characterization on an idle client. -/
theorem poll_without_event_characterization_witness :
    (⟨[], [], .New, [], []⟩ : RocketClient).stream_in = [] ∨
      ((⟨[], [], .New, [], []⟩ : RocketClient).state = ClientState.New ∧
       (⟨[], [], .New, [], []⟩ : RocketClient).cmd = []) :=
  poll_without_event_characterization 2 ⟨[], [], .New, [], []⟩ ⟨[], [], .New, [], []⟩ rfl

/-- Floor cast bound: a row at most a u32 key position floors to at most
that position. -/
theorem floorToU32_le_of_le {row : ℚ} {c : Nat} (h : row ≤ (c : ℚ)) :
    floorToU32 row ≤ c := by
  unfold floorToU32
  have h1 : ⌊row⌋ ≤ (c : ℤ) := by
    rw [← Int.floor_natCast (α := ℚ) c]
    exact Int.floor_le_floor h
  have h2 : min ⌊row⌋ (2 ^ 32 - 1) ≤ (c : ℤ) := le_trans (min_le_left _ _) h1
  exact Int.toNat_le.mpr h2

/-- Floor cast bound: a row at least a key position below the u32 maximum
floors to at least that position. -/
theorem le_floorToU32_of_le {row : ℚ} {c : Nat} (h : (c : ℚ) ≤ row) (hc : c < 2 ^ 32) :
    c ≤ floorToU32 row := by
  unfold floorToU32
  have h1 : (c : ℤ) ≤ ⌊row⌋ := Int.le_floor.mpr (by exact_mod_cast h)
  have h2 : (c : ℤ) ≤ 2 ^ 32 - 1 := by omega
  have h3 : (c : ℤ) ≤ min ⌊row⌋ (2 ^ 32 - 1) := le_min h1 h2
  have h0 : (0 : ℤ) ≤ min ⌊row⌋ (2 ^ 32 - 1) := le_trans (by positivity) h3
  exact (Int.le_toNat h0).mpr h3

/-- Interior characterization of Track::get_value: when the floored row
lies strictly between the first and last key positions, the insertion
search yields a position p with 1 ≤ p < length, the keys at p-1 and p
bracket the floored row as lower.row < floor(row) ≤ higher.row, and the
result interpolates the two values with the lower curve. -/
theorem get_value_interior (t : Track) (row : ℚ) (first last : Key)
    (hh : t.keys.head? = some first) (hl : t.keys.getLast? = some last)
    (h1 : first.row < floorToU32 row) (h2 : floorToU32 row < last.row) :
    ∃ p lower higher,
      t.get_insert_position (floorToU32 row) = some p ∧
      0 < p ∧ p < t.keys.length ∧
      t.keys[p - 1]? = some lower ∧ t.keys[p]? = some higher ∧
      lower.row < floorToU32 row ∧ floorToU32 row ≤ higher.row ∧
      t.get_value row = some (lower.value + (higher.value - lower.value) *
        lower.interpolation.interpolate
          ((row - (lower.row : ℚ)) / ((higher.row : ℚ) - (lower.row : ℚ)))) := by
  have hlast_mem : last ∈ t.keys := List.mem_of_getLast?_eq_some hl
  have hsome : (t.keys.findIdx? (fun k => decide (floorToU32 row ≤ k.row))).isSome := by
    rw [List.findIdx?_isSome]
    exact List.any_eq_true.mpr ⟨last, hlast_mem, by simpa using Nat.le_of_lt h2⟩
  obtain ⟨p, hp⟩ := Option.isSome_iff_exists.mp hsome
  obtain ⟨hplt, hptrue, hpfalse⟩ := List.findIdx?_eq_some_iff_getElem.mp hp
  have h0len : 0 < t.keys.length := Nat.lt_of_le_of_lt (Nat.zero_le p) hplt
  have hfirst : t.keys[0] = first := by
    have h0 : t.keys[0]? = some first := by rw [← List.head?_eq_getElem?]; exact hh
    rw [List.getElem?_eq_getElem h0len] at h0
    exact Option.some.inj h0
  have hp0 : p ≠ 0 := by
    intro h0eq
    subst h0eq
    rw [hfirst] at hptrue
    simp at hptrue
    omega
  have hppos : 0 < p := Nat.pos_of_ne_zero hp0
  have hp1 : p - 1 < t.keys.length := by omega
  have hlowfalse := hpfalse (p - 1) (by omega)
  simp only [decide_eq_true_eq] at hlowfalse hptrue
  have hlowlt : (t.keys[p - 1]).row < floorToU32 row := Nat.lt_of_not_le hlowfalse
  have hins : t.get_insert_position (floorToU32 row) = some p := by
    rw [get_insert_position_eq, hp]
  refine ⟨p, t.keys[p - 1], t.keys[p], hins, hppos, hplt,
    List.getElem?_eq_getElem hp1, List.getElem?_eq_getElem hplt, hlowlt, hptrue, ?_⟩
  unfold Track.get_value
  rw [hh, hl]
  simp only
  rw [if_neg (by omega), if_neg (by omega), hins]
  simp only
  rw [if_neg hp0]
  rw [List.getElem?_eq_getElem hp1, List.getElem?_eq_getElem hplt]

/-- C2 (amended). For a track and row in the non-clamped case, get_value
locates via the insertion search the adjacent pair (lower, higher) with
lower.position < floor(row) ≤ higher.position (the claimed bracketing
lower.position ≤ floor(row) < higher.position is refuted by the
counterexample), computes t = (row − lower.position) /
(higher.position − lower.position), eases t with the curve of the lower
key, and linearly interpolates the two values by the eased factor. -/
theorem get_value_bracketing_pair (t : Track) (row : ℚ) (first last : Key)
    (hh : t.keys.head? = some first) (hl : t.keys.getLast? = some last)
    (h1 : first.row < floorToU32 row) (h2 : floorToU32 row < last.row) :
    ∃ p lower higher,
      t.get_insert_position (floorToU32 row) = some p ∧
      0 < p ∧ p < t.keys.length ∧
      t.keys[p - 1]? = some lower ∧ t.keys[p]? = some higher ∧
      lower.row < floorToU32 row ∧ floorToU32 row ≤ higher.row ∧
      t.get_value row = some (lower.value + (higher.value - lower.value) *
        lower.interpolation.interpolate
          ((row - (lower.row : ℚ)) / ((higher.row : ℚ) - (lower.row : ℚ)))) :=
  get_value_interior t row first last hh hl h1 h2

/-- Evaluation of the saturating floor cast at 11/2. -/
theorem floorToU32_eval_11_2 : floorToU32 (11 / 2 : ℚ) = 5 := by
  norm_num [floorToU32]
  decide

/-- Evaluation of the saturating floor cast at 6. -/
theorem floorToU32_eval_6 : floorToU32 (6 : ℚ) = 6 := by
  norm_num [floorToU32]
  decide

/-- Witness for get_value_bracketing_pair on the example track at row 6:
the located pair is (row 5, row 10), bracketing as 5 < 6 le 10. -/
theorem get_value_bracketing_pair_witness :
    ∃ p lower higher,
      exTrack.get_insert_position (floorToU32 6) = some p ∧
      0 < p ∧ p < exTrack.keys.length ∧
      exTrack.keys[p - 1]? = some lower ∧ exTrack.keys[p]? = some higher ∧
      lower.row < floorToU32 6 ∧ floorToU32 6 ≤ higher.row ∧
      exTrack.get_value 6 = some (lower.value + (higher.value - lower.value) *
        lower.interpolation.interpolate
          ((6 - (lower.row : ℚ)) / ((higher.row : ℚ) - (lower.row : ℚ)))) :=
  get_value_bracketing_pair exTrack 6 (Key.new 0 0 .Linear) (Key.new 10 3 .Linear) rfl rfl
    (by rw [floorToU32_eval_6]; decide) (by rw [floorToU32_eval_6]; decide)

/-- C2 counterexample. On the example track (linear keys at rows 0, 5 and
10 with values 0, 1 and 3) at row 11/2, the code interpolates inside the
segment selected with lower.row < floor(row) ≤ higher.row, giving 11/10
with t = 11/10 outside [0,1), while the claimed bracketing
lower.position ≤ floor(row) < higher.position would give 6/5; the two
disagree, refuting the claim as stated. -/
theorem get_value_differs_from_claimed_bracketing :
    exTrack.get_value (11 / 2) = some (11 / 10) ∧
    exTrack.get_value_spec (11 / 2) = some (6 / 5) ∧
    ¬ exTrack.get_value (11 / 2) = exTrack.get_value_spec (11 / 2) := by
  have hcode : exTrack.get_value (11 / 2) = some (11 / 10) := by
    norm_num [Track.get_value, exTrack, Track.get_insert_position, floorToU32_eval_11_2,
      Key.new, Interpolation.interpolate, List.findIdx?_cons]
  have hspec : exTrack.get_value_spec (11 / 2) = some (6 / 5) := by
    norm_num [Track.get_value_spec, exTrack, floorToU32_eval_11_2, Key.new,
      Interpolation.interpolate, List.findIdx?_cons]
  refine ⟨hcode, hspec, ?_⟩
  rw [hcode, hspec]
  simp only [Option.some.injEq]
  norm_num

/-- C6. Clamped evaluation: a track with no keys evaluates to 0
everywhere; with at least one key, a row at most the first key position
evaluates to the first key value, and a row at least the last key
position evaluates to the last key value (using that key positions are
u32 values, below 2^32). -/
theorem get_value_clamps (t : Track) (row : ℚ) (hs : KeysSorted t.keys)
    (hb : ∀ k ∈ t.keys, k.row < 2 ^ 32) :
    (t.keys = [] → t.get_value row = some 0) ∧
    (∀ first, t.keys.head? = some first → row ≤ (first.row : ℚ) →
      t.get_value row = some first.value) ∧
    (∀ last, t.keys.getLast? = some last → (last.row : ℚ) ≤ row →
      t.get_value row = some last.value) := by
  obtain ⟨nm, ks⟩ := t
  simp only at hs hb ⊢
  refine ⟨?_, ?_, ?_⟩
  · intro hnil
    subst hnil
    simp [Track.get_value]
  · intro first hh hrow
    cases ks with
    | nil => exact absurd hh (by simp)
    | cons k0 tl =>
      have hk0 : k0 = first := by simpa using hh
      subst hk0
      have hlsome : ((k0 :: tl).getLast?).isSome := by
        rw [List.getLast?_isSome]; simp
      obtain ⟨la, hla⟩ := Option.isSome_iff_exists.mp hlsome
      have hle : floorToU32 row ≤ k0.row := floorToU32_le_of_le hrow
      unfold Track.get_value
      simp only [List.head?_cons]
      rw [hla]
      simp only
      rw [if_pos hle]
  · intro last hl hrow
    cases ks with
    | nil => exact absurd hl (by simp)
    | cons k0 tl =>
      have hmem : last ∈ k0 :: tl := List.mem_of_getLast?_eq_some hl
      have hbound : last.row < 2 ^ 32 := hb last hmem
      have hge : last.row ≤ floorToU32 row := le_floorToU32_of_le hrow hbound
      unfold Track.get_value
      simp only [List.head?_cons]
      rw [hl]
      simp only
      by_cases hc1 : floorToU32 row ≤ k0.row
      · rw [if_pos hc1]
        cases tl with
        | nil =>
          have : k0 = last := by simpa using hl
          subst this
          rfl
        | cons t1 tl1 =>
          rw [List.getLast?_cons_cons] at hl
          have hmem1 : last ∈ t1 :: tl1 := List.mem_of_getLast?_eq_some hl
          unfold KeysSorted at hs
          rw [List.pairwise_cons] at hs
          have := hs.1 last hmem1
          omega
      · rw [if_neg hc1, if_pos hge]

/-- Witness for get_value_clamps: empty track, row before the first key,
row after the last key. -/
theorem get_value_clamps_witness :
    (Track.new "e").get_value 7 = some 0 ∧
    exTrack.get_value 0 = some (Key.new 0 0 .Linear).value ∧
    exTrack.get_value 12 = some (Key.new 10 3 .Linear).value :=
  ⟨(get_value_clamps (Track.new "e") 7 (by decide) (by decide)).1 rfl,
   (get_value_clamps exTrack 0 (by decide) (by decide)).2.1 (Key.new 0 0 .Linear) rfl
     (by norm_num [Key.new]),
   (get_value_clamps exTrack 12 (by decide) (by decide)).2.2 (Key.new 10 3 .Linear) rfl
     (by norm_num [Key.new])⟩

/-- C9. On a track whose keys are sorted strictly ascending, get_value
never reaches a panic of the source (modelled by none): the clamp checks
and the bounds of the insertion search keep every unwrap and index access
in range. The proof shows the result is some value for every row; as the
interior lemma shows, the search position is at least 1 and below the key
count even without sortedness. -/
theorem get_value_no_panic (t : Track) (row : ℚ) (hs : KeysSorted t.keys) :
    (t.get_value row).isSome := by
  obtain ⟨nm, ks⟩ := t
  cases ks with
  | nil => simp [Track.get_value]
  | cons k0 tl =>
    have hh : (Track.mk nm (k0 :: tl)).keys.head? = some k0 := rfl
    have hlsome : ((k0 :: tl).getLast?).isSome := by
      rw [List.getLast?_isSome]; simp
    obtain ⟨la, hla⟩ := Option.isSome_iff_exists.mp hlsome
    by_cases hc1 : floorToU32 row ≤ k0.row
    · unfold Track.get_value
      simp only [List.head?_cons]
      rw [hla]
      simp only
      rw [if_pos hc1]
      rfl
    · by_cases hc2 : la.row ≤ floorToU32 row
      · unfold Track.get_value
        simp only [List.head?_cons]
        rw [hla]
        simp only
        rw [if_neg hc1, if_pos hc2]
        rfl
      · obtain ⟨p, lower, higher, _, _, _, _, _, _, _, hgv⟩ :=
          get_value_interior (Track.mk nm (k0 :: tl)) row k0 la hh hla
            (Nat.lt_of_not_le hc1) (Nat.lt_of_not_le hc2)
        rw [hgv]
        rfl

/-- Witness for get_value_no_panic on the example track. -/
theorem get_value_no_panic_witness :
    (exTrack.get_value 6).isSome :=
  get_value_no_panic exTrack 6 (by decide)

/-- Appending a freshly created track for a name not yet present makes the
name lookup find it at the old length. -/
theorem findIdx?_new_track {l : List Track} {name : String}
    (h : l.findIdx? (fun t => t.get_name == name) = none) :
    ((l ++ [Track.new name]).findIdx? (fun t => t.get_name == name)) = some l.length := by
  rw [List.findIdx?_append, h]
  simp [List.findIdx?_cons, Track.new, Track.get_name]

/-- C7. Requesting a track by name twice returns the same index both
times and the second request leaves the client unchanged; when the name
is new, exactly one RequestTrack message is appended to the transport and
the assigned index is the registry length at that moment, so indices
follow the order in which creation requests were sent; when the name
exists, nothing is sent and the existing index is returned. -/
theorem get_track_mut_props (c : RocketClient) (name : String) :
    (((c.get_track_mut name).2.get_track_mut name).1 = (c.get_track_mut name).1 ∧
     ((c.get_track_mut name).2.get_track_mut name).2 = (c.get_track_mut name).2) ∧
    (c.tracks.findIdx? (fun t => t.get_name == name) = none →
      (c.get_track_mut name).1 = c.tracks.length ∧
      (c.get_track_mut name).2.sent = c.sent ++ [requestTrackMsg name] ∧
      (c.get_track_mut name).2.tracks = c.tracks ++ [Track.new name]) ∧
    (∀ j, c.tracks.findIdx? (fun t => t.get_name == name) = some j →
      (c.get_track_mut name).1 = j ∧ (c.get_track_mut name).2 = c) := by
  cases hf : c.tracks.findIdx? (fun t => t.get_name == name) with
  | none =>
    have hstep : c.get_track_mut name =
        (c.tracks.length,
         { c with sent := c.sent ++ [requestTrackMsg name],
                  tracks := c.tracks ++ [Track.new name] }) := by
      unfold RocketClient.get_track_mut
      rw [hf]
    have hsecond : ((c.get_track_mut name).2.get_track_mut name) =
        (c.tracks.length, (c.get_track_mut name).2) := by
      rw [hstep]
      unfold RocketClient.get_track_mut
      simp only
      rw [findIdx?_new_track hf]
    refine ⟨⟨?_, ?_⟩, ?_, ?_⟩
    · rw [hsecond, hstep]
    · rw [hsecond]
    · intro _
      rw [hstep]
      exact ⟨rfl, rfl, rfl⟩
    · intro j hj
      exact Option.noConfusion hj
  | some j =>
    have hstep : c.get_track_mut name = (j, c) := by
      unfold RocketClient.get_track_mut
      rw [hf]
    refine ⟨⟨?_, ?_⟩, ?_, ?_⟩
    · rw [hstep]
      simp only
      rw [hstep]
    · rw [hstep]
      simp only
      rw [hstep]
    · intro hn
      exact Option.noConfusion hn
    · intro i hi
      rw [hstep]
      exact ⟨Option.some.inj hi, rfl⟩

/-- Witness for get_track_mut_props: a fresh name on the example client. -/
theorem get_track_mut_props_witness :
    (((exClient.get_track_mut "a").2.get_track_mut "a").1 = (exClient.get_track_mut "a").1 ∧
     ((exClient.get_track_mut "a").2.get_track_mut "a").2 = (exClient.get_track_mut "a").2) ∧
    ((exClient.get_track_mut "a").1 = exClient.tracks.length ∧
     (exClient.get_track_mut "a").2.sent = exClient.sent ++ [requestTrackMsg "a"] ∧
     (exClient.get_track_mut "a").2.tracks = exClient.tracks ++ [Track.new "a"]) :=
  ⟨(get_track_mut_props exClient "a").1,
   (get_track_mut_props exClient "a").2.1 (by decide)⟩

end RustRocket
